import Mathlib

/-
Verification development for the `Instrument` additive-synthesis engine in
src/synth.py. Python floats are modelled as rationals (ℚ) for all state and
envelope arithmetic; the audio samples themselves live in ℝ because they go
through `Real.sin`. Python's mutable object state is threaded explicitly:
each method becomes a function from the mutable state to the new state,
possibly paired with the exception it raises (`PyErr`), since a raised
exception in Python leaves already-performed mutations in place.
-/

namespace Synth

/-- Python exceptions that the embedded methods can raise. -/
inductive PyErr where
  | typeError
  | keyError
  | assertionError
deriving DecidableEq

/-- One voice: `Instrument.Note` (src/synth.py lines 49–56), a fundamental
frequency together with the current envelope amplitude. -/
structure Note where
  fundamental : ℚ
  amp : ℚ
deriving DecidableEq

/-- A Python dict keyed by characters, as an insertion-ordered association
list (the model of `pressed_keys` and `releasing_keys`). -/
abbrev Dict := List (Char × Note)

/-- Lookup `d[k]`, returning `none` where Python would raise KeyError. -/
def dictGet (k : Char) : Dict → Option Note
  | [] => none
  | (k', n) :: rest => if k' = k then some n else dictGet k rest

/-- Assignment `d[k] = v`: replaces the value of an existing key in place,
otherwise appends the new binding (Python dicts keep insertion order). -/
def dictInsert (k : Char) (v : Note) : Dict → Dict
  | [] => [(k, v)]
  | (k', n) :: rest =>
      if k' = k then (k, v) :: rest else (k', n) :: dictInsert k v rest

/-- Deletion `del d[k]`: removes the binding of `k` (the first one; dicts
built by `dictInsert` never hold a key twice). -/
def dictDelete (k : Char) : Dict → Dict
  | [] => []
  | (k', n) :: rest => if k' = k then rest else (k', n) :: dictDelete k rest

/-- The immutable configuration fields an `Instrument` carries after
`__init__` (src/synth.py lines 16–42). -/
structure Config where
  harmonics : List ℚ
  amps : List ℚ
  attack : ℚ
  release : ℚ
  n_attack_samples : ℚ
  n_release_samples : ℚ
  sample_rate : ℚ
  chunk_size : ℕ
  buffer_time_lapse : ℚ
deriving DecidableEq

/-- The mutable fields of an `Instrument`: the running phase-time offset, the
two voice registries and the octave multiplier (src/synth.py lines 40–46). -/
structure SynthState where
  time_offset : ℚ
  pressed_keys : Dict
  releasing_keys : Dict
  octave : ℚ
deriving DecidableEq

/-- Mutable state of a freshly constructed `Instrument`:
`time_offset = 0`, empty registries, `octave = 1`. -/
def initState : SynthState := ⟨0, [], [], 1⟩

/-- Truthiness of a Python 2-tuple: a nonempty tuple is always truthy,
whatever its components are. This is what line 24's
`assert(cond, "message")` actually tests, because the parentheses make the
asserted expression the tuple itself. -/
def pyTupleTruthy (t : Bool × String) : Bool := true

/-- Field computation of `Instrument.__init__` (src/synth.py lines 16–42):
`amps` defaults to all-ones, `n_attack_samples = attack*sample_rate`
(remapped to 1 when zero), `n_release_samples = release*sample_rate`, and —
reproducing the slip on line 33 — when the release sample count is zero the
source resets `n_attack_samples`, not `n_release_samples`. -/
def configOf (harmonics : List ℚ) (amps : Option (List ℚ))
    (attack release sample_rate : ℚ) (chunk_size : ℕ) : Config :=
  let ampsVal := match amps with
    | none => List.replicate harmonics.length (1 : ℚ)
    | some a => a
  let nas := attack * sample_rate
  let nas := if nas = 0 then 1 else nas
  let nrs := release * sample_rate
  let nas := if nrs = 0 then 1 else nas
  { harmonics := harmonics
    amps := ampsVal
    attack := attack
    release := release
    n_attack_samples := nas
    n_release_samples := nrs
    sample_rate := sample_rate
    chunk_size := chunk_size
    buffer_time_lapse := (chunk_size : ℚ) / sample_rate }

/-- Shallow embedding of `Instrument.__init__` (src/synth.py lines 16–46),
including its failure behaviour at line 24,
`assert(len(amps) == len(harmonics), "...")`: when `amps` is `None`,
evaluating `len(amps)` raises a TypeError; otherwise the asserted expression
is a nonempty tuple, hence truthy, so the assert can never fail and a
harmonics/amps length mismatch goes undetected. -/
def instrumentInit (harmonics : List ℚ) (amps : Option (List ℚ))
    (attack release sample_rate : ℚ) (chunk_size : ℕ) : Except PyErr Config :=
  match amps with
  | none => Except.error PyErr.typeError
  | some a =>
      if pyTupleTruthy (decide (a.length = harmonics.length),
          "size of amps does not match freqs or harmonics") then
        Except.ok (configOf harmonics (some a) attack release sample_rate chunk_size)
      else Except.error PyErr.assertionError

/-- Shallow embedding of `Instrument._key_to_freq` (src/synth.py lines
68–106): the fully enumerated key layout. Returns the produced base
frequency (`none` for the two octave controls and for unmapped keys) paired
with the value of `self.octave` after the call ('z' halves it, 'x' doubles
it, every other key leaves it alone). Frequencies are the exact decimal
literals of the source. -/
def keyToFreq (octave : ℚ) (in_key : Char) : Option ℚ × ℚ :=
  if in_key = 'z' then (none, octave / 2)
  else if in_key = 'x' then (none, octave * 2)
  else if in_key = 'a' then (some (26163/100), octave)
  else if in_key = 'w' then (some (27718/100), octave)
  else if in_key = 's' then (some (29366/100), octave)
  else if in_key = 'e' then (some (31113/100), octave)
  else if in_key = 'd' then (some (32963/100), octave)
  else if in_key = 'f' then (some (34923/100), octave)
  else if in_key = 't' then (some (36999/100), octave)
  else if in_key = 'g' then (some (39200/100), octave)
  else if in_key = 'y' then (some (41530/100), octave)
  else if in_key = 'h' then (some (44000/100), octave)
  else if in_key = 'u' then (some (46616/100), octave)
  else if in_key = 'j' then (some (49388/100), octave)
  else if in_key = 'k' then (some (52325/100), octave)
  else if in_key = 'o' then (some (55437/100), octave)
  else if in_key = 'l' then (some (58733/100), octave)
  else if in_key = 'p' then (some (62225/100), octave)
  else if in_key = 'ñ' then (some (65925/100), octave)
  else (none, octave)

/-- Shallow embedding of `Instrument.key_press` (src/synth.py lines
156–159). `fundamental = self.octave * self._key_to_freq(in_key)` reads
`self.octave` before the call (Python evaluates left to right) and raises a
TypeError when `_key_to_freq` returns `None` — after any octave side effect
has already been applied. `if fundamental:` is Python truthiness, false
exactly at 0. -/
def keyPress (st : SynthState) (in_key : Char) : SynthState × Option PyErr :=
  let res := keyToFreq st.octave in_key
  let st' := { st with octave := res.2 }
  match res.1 with
  | none => (st', some PyErr.typeError)
  | some f =>
      let fundamental := st.octave * f
      if fundamental = 0 then (st', none)
      else ({ st' with
                pressed_keys := dictInsert in_key ⟨fundamental, 0⟩ st'.pressed_keys },
            none)

/-- Shallow embedding of `Instrument.key_release` (src/synth.py lines
161–165). Here `fundamental` is the bare `_key_to_freq` result (no octave
multiplication), so a `None` result is merely falsy and the method returns
without touching the registries; when the key resolves, the source reads
`self.pressed_keys[in_key]` — raising a KeyError if the key is absent —
then copies its fundamental and current amplitude into a fresh `Note` in
`releasing_keys` and deletes the pressed entry. -/
def keyRelease (st : SynthState) (in_key : Char) : SynthState × Option PyErr :=
  let res := keyToFreq st.octave in_key
  let st' := { st with octave := res.2 }
  match res.1 with
  | none => (st', none)
  | some f =>
      if f = 0 then (st', none)
      else
        match dictGet in_key st'.pressed_keys with
        | none => (st', some PyErr.keyError)
        | some note =>
            ({ st' with
                releasing_keys :=
                  dictInsert in_key ⟨note.fundamental, note.amp⟩ st'.releasing_keys,
                pressed_keys := dictDelete in_key st'.pressed_keys },
             none)

/-- Per-note amplitude mutation performed by
`Instrument._generate_pressed_sound` (src/synth.py lines 122–128): while
`amp < 1`, advance by `chunk_size / n_attack_samples` and clamp to 1 once
the result reaches 1; a note already at amplitude 1 is left untouched. -/
def notePressedStep (cfg : Config) (note : Note) : Note :=
  if note.amp < 1 then
    let amp_end := note.amp + (cfg.chunk_size : ℚ) / cfg.n_attack_samples
    { note with amp := if amp_end ≥ 1 then 1 else amp_end }
  else note

/-- Per-note amplitude mutation performed by
`Instrument._generate_releasing_sound` (src/synth.py lines 140–149): a note
with positive amplitude is decremented by `chunk_size / n_attack_samples`
(line 143 divides by the ATTACK sample count, not the release one) with no
clamp at 0; a note with non-positive amplitude is deleted (`none`). -/
def noteReleasingStep (cfg : Config) (note : Note) : Option Note :=
  if note.amp > 0 then
    some { note with amp := note.amp - (cfg.chunk_size : ℚ) / cfg.n_attack_samples }
  else none

/-- Registry effect of `Instrument._generate_pressed_sound` (src/synth.py
lines 116–134): every pressed note has its amplitude advanced. -/
def generatePressedState (cfg : Config) (pressed : Dict) : Dict :=
  pressed.map (fun e => (e.1, notePressedStep cfg e.2))

/-- Registry effect of `Instrument._generate_releasing_sound` (src/synth.py
lines 136–154): every releasing note is decremented or deleted. -/
def generateReleasingState (cfg : Config) (releasing : Dict) : Dict :=
  releasing.filterMap (fun e => (noteReleasingStep cfg e.2).map (fun n => (e.1, n)))

/-- State effect of one iteration of the render loop in
`Instrument.emit_sound` (src/synth.py lines 170–179): with both registries
empty the tick only resets `time_offset` to 0; otherwise both registries
advance, `time_offset` grows by one buffer duration and wraps to 0 once it
exceeds 360. -/
def emitTickState (cfg : Config) (st : SynthState) : SynthState :=
  if st.pressed_keys = [] ∧ st.releasing_keys = [] then
    { st with time_offset := 0 }
  else
    let pressed := generatePressedState cfg st.pressed_keys
    let releasing := generateReleasingState cfg st.releasing_keys
    let t := st.time_offset + cfg.buffer_time_lapse
    { st with
        pressed_keys := pressed
        releasing_keys := releasing
        time_offset := if t > 360 then 0 else t }

/-- One event processed by the engine: a key press, a key release, or one
render-loop tick. A raised exception leaves the mutated state in place and
is swallowed by the caller (the listener callbacks in src/synth.py lines
200–217 wrap both entry points in try/except), so running a script keeps
the state component of each call. -/
inductive Op where
  | press (k : Char)
  | release (k : Char)
  | tick
deriving DecidableEq

/-- Apply one event to the engine state. -/
def runOp (cfg : Config) (st : SynthState) : Op → SynthState
  | .press k => (keyPress st k).1
  | .release k => (keyRelease st k).1
  | .tick => emitTickState cfg st

/-- Apply a sequence of events to the engine state. -/
def runOps (cfg : Config) (st : SynthState) : List Op → SynthState
  | [] => st
  | op :: rest => runOps cfg (runOp cfg st op) rest

/-- Amplitude bounds maintained by the engine (the amended C4 invariant):
every pressed voice's amplitude lies in [0, 1]; every releasing voice's
amplitude is at most 1 and greater than minus one release decrement (the
source stores the decremented value without clamping at 0, so a releasing
voice can sit one tick at a negative amplitude before being removed). -/
def ampInvariant (cfg : Config) (st : SynthState) : Prop :=
  (∀ e ∈ st.pressed_keys, 0 ≤ e.2.amp ∧ e.2.amp ≤ 1)
  ∧ (∀ e ∈ st.releasing_keys,
      -((cfg.chunk_size : ℚ) / cfg.n_attack_samples) < e.2.amp ∧ e.2.amp ≤ 1)

/-- Evaluation of `np.linspace(a, b, num, endpoint=False)` at index `i`:
`a + i*(b-a)/num`. -/
def linspace (a b : ℚ) (num : ℕ) (i : ℕ) : ℚ := a + i * ((b - a) / num)

/-- The buffer-local time vector `self.time_chunk` (src/synth.py line 42):
`np.linspace(0, buffer_time_lapse, chunk_size, endpoint=False)` at index
`i`. -/
def timeChunk (cfg : Config) (i : ℕ) : ℚ :=
  linspace 0 cfg.buffer_time_lapse cfg.chunk_size i

/-- Sinusoid sum shared by the renderer and the spec-side closed form: over
`zip(harmonics, amps)`, add `a * sin(2*pi*(fundamental*h*t))`. The rational
data is cast into ℝ at the sine argument. -/
noncomputable def waveSum (harmonics amps : List ℚ) (fundamental t : ℚ) : ℝ :=
  ((harmonics.zip amps).map
    (fun p => (p.2 : ℝ) * Real.sin (2 * Real.pi * ((fundamental * p.1 * t : ℚ) : ℝ)))).sum

/-- Shallow embedding of `Instrument._generate_sound_chunk` (src/synth.py
lines 108–114): sample `i` of the raw (unenveloped) chunk for a given
fundamental, at time `time_chunk[i] + time_offset`. -/
noncomputable def generateSoundChunk (cfg : Config) (time_offset fundamental : ℚ)
    (i : ℕ) : ℝ :=
  waveSum cfg.harmonics cfg.amps fundamental (timeChunk cfg i + time_offset)

/-- Sample `i` contributed by one pressed note in
`Instrument._generate_pressed_sound` (src/synth.py lines 120–130): while
`amp < 1` the raw chunk is multiplied pointwise by the attack envelope
`linspace(amp, amp + chunk_size/n_attack_samples, chunk_size)`; at
amplitude 1 the raw chunk passes through unscaled. -/
noncomputable def pressedNoteChunk (cfg : Config) (time_offset : ℚ) (note : Note)
    (i : ℕ) : ℝ :=
  if note.amp < 1 then
    ((linspace note.amp (note.amp + (cfg.chunk_size : ℚ) / cfg.n_attack_samples)
        cfg.chunk_size i : ℚ) : ℝ)
      * generateSoundChunk cfg time_offset note.fundamental i
  else generateSoundChunk cfg time_offset note.fundamental i

/-- Sample `i` contributed by one releasing note in
`Instrument._generate_releasing_sound` (src/synth.py lines 140–149): a note
with positive amplitude contributes the raw chunk scaled by the release
envelope (whose slope also divides by the attack sample count, line 143);
a note at non-positive amplitude contributes nothing. -/
noncomputable def releasingNoteChunk (cfg : Config) (time_offset : ℚ) (note : Note)
    (i : ℕ) : ℝ :=
  if note.amp > 0 then
    ((linspace note.amp (note.amp - (cfg.chunk_size : ℚ) / cfg.n_attack_samples)
        cfg.chunk_size i : ℚ) : ℝ)
      * generateSoundChunk cfg time_offset note.fundamental i
  else 0

/-- Sample `i` of the chunk built by `Instrument._generate_pressed_sound`:
the sum of every pressed note's contribution. -/
noncomputable def generatePressedChunk (cfg : Config) (time_offset : ℚ)
    (pressed : Dict) (i : ℕ) : ℝ :=
  (pressed.map (fun e => pressedNoteChunk cfg time_offset e.2 i)).sum

/-- Sample `i` of the chunk built by `Instrument._generate_releasing_sound`. -/
noncomputable def generateReleasingChunk (cfg : Config) (time_offset : ℚ)
    (releasing : Dict) (i : ℕ) : ℝ :=
  (releasing.map (fun e => releasingNoteChunk cfg time_offset e.2 i)).sum

/-- Sample `i` of the buffer written by one iteration of the render loop in
`Instrument.emit_sound` (src/synth.py lines 170–181): `none` on an idle tick
(nothing is written), otherwise the pressed and releasing contributions
summed, all evaluated against the pre-tick state. -/
noncomputable def emitTickChunk (cfg : Config) (st : SynthState) (i : ℕ) : Option ℝ :=
  if st.pressed_keys = [] ∧ st.releasing_keys = [] then none
  else some (generatePressedChunk cfg st.time_offset st.pressed_keys i
             + generateReleasingChunk cfg st.time_offset st.releasing_keys i)

/-- Modelled from the spec (§8, phase continuity): pointwise evaluation of
`sum over k of weight[k]*sin(2*pi*fundamental*ratio[k]*t)` on the single
contiguous sample-time vector that starts at `t0` and advances by
`1/sample_rate` per sample; `m` is the global sample index. -/
noncomputable def specContiguousWave (cfg : Config) (t0 fundamental : ℚ) (m : ℕ) : ℝ :=
  waveSum cfg.harmonics cfg.amps fundamental (t0 + m / cfg.sample_rate)

/-! Evaluation lemmas for `keyToFreq` at the concrete keys the theorems
use, and the two shape facts about it that hold for every key. -/

@[simp] theorem keyToFreq_key_z (o : ℚ) : keyToFreq o 'z' = (none, o / 2) := rfl

@[simp] theorem keyToFreq_key_x (o : ℚ) : keyToFreq o 'x' = (none, o * 2) := rfl

@[simp] theorem keyToFreq_key_a (o : ℚ) : keyToFreq o 'a' = (some (26163/100), o) := rfl

@[simp] theorem keyToFreq_key_q (o : ℚ) : keyToFreq o 'q' = (none, o) := rfl

theorem ite_snd {o : ℚ} {c : Prop} [Decidable c] {x y : Option ℚ × ℚ}
    (hx : x.2 = o) (hy : y.2 = o) : (if c then x else y).2 = o := by
  by_cases h : c <;> simp [h, hx, hy]

/-- Every key other than the two octave controls leaves the octave alone. -/
theorem keyToFreq_snd_of_ne (o : ℚ) (k : Char) (hz : k ≠ 'z') (hx : k ≠ 'x') :
    (keyToFreq o k).2 = o := by
  unfold keyToFreq
  rw [if_neg hz, if_neg hx]
  repeat' first | rfl | apply ite_snd

/-- When `_key_to_freq` returns a frequency, it has not touched the octave. -/
theorem keyToFreq_snd_of_isSome (o : ℚ) (k : Char) (f : ℚ)
    (h : (keyToFreq o k).1 = some f) : (keyToFreq o k).2 = o := by
  by_cases hz : k = 'z'
  · rw [hz] at h; simp at h
  · by_cases hx : k = 'x'
    · rw [hx] at h; simp at h
    · exact keyToFreq_snd_of_ne o k hz hx

/-! Association-list lemmas for the registry model. -/

theorem dictGet_dictInsert_self (k : Char) (v : Note) (l : Dict) :
    dictGet k (dictInsert k v l) = some v := by
  induction l with
  | nil => simp [dictInsert, dictGet]
  | cons e rest ih =>
      obtain ⟨k', n⟩ := e
      by_cases h : k' = k
      · subst h; simp [dictInsert, dictGet]
      · simp [dictInsert, dictGet, h, ih]

theorem dictGet_eq_none (k : Char) (l : Dict) :
    dictGet k l = none ↔ k ∉ l.map Prod.fst := by
  induction l with
  | nil => simp [dictGet]
  | cons e rest ih =>
      obtain ⟨k', n⟩ := e
      by_cases h : k' = k
      · subst h; simp [dictGet]
      · simp [dictGet, h, ih, Ne.symm h]

theorem dictGet_mem {k : Char} {n : Note} {l : Dict}
    (h : dictGet k l = some n) : (k, n) ∈ l := by
  induction l with
  | nil => simp [dictGet] at h
  | cons e rest ih =>
      obtain ⟨k', m⟩ := e
      by_cases hk : k' = k
      · subst hk
        simp [dictGet] at h
        subst h
        exact List.mem_cons_self _ _
      · simp [dictGet, hk] at h
        exact List.mem_cons_of_mem _ (ih h)

theorem mem_dictInsert {e : Char × Note} {k : Char} {v : Note} {l : Dict}
    (h : e ∈ dictInsert k v l) : e = (k, v) ∨ e ∈ l := by
  induction l with
  | nil => simp [dictInsert] at h; exact Or.inl h
  | cons e' rest ih =>
      obtain ⟨k', n⟩ := e'
      by_cases hk : k' = k
      · subst hk
        simp [dictInsert] at h
        rcases h with h | h
        · exact Or.inl h
        · exact Or.inr (List.mem_cons_of_mem _ h)
      · simp [dictInsert, hk] at h
        rcases h with h | h
        · exact Or.inr (by simp [h])
        · rcases ih h with h' | h'
          · exact Or.inl h'
          · exact Or.inr (List.mem_cons_of_mem _ h')

theorem mem_dictDelete {e : Char × Note} {k : Char} {l : Dict}
    (h : e ∈ dictDelete k l) : e ∈ l := by
  induction l with
  | nil => simp [dictDelete] at h
  | cons e' rest ih =>
      obtain ⟨k', n⟩ := e'
      by_cases hk : k' = k
      · simp [dictDelete, hk] at h
        exact List.mem_cons_of_mem _ h
      · simp [dictDelete, hk] at h
        rcases h with h | h
        · simp [h]
        · exact List.mem_cons_of_mem _ (ih h)

theorem dictGet_dictDelete_self {k : Char} {l : Dict}
    (hnd : (l.map Prod.fst).Nodup) : dictGet k (dictDelete k l) = none := by
  induction l with
  | nil => simp [dictDelete, dictGet]
  | cons e rest ih =>
      obtain ⟨k', n⟩ := e
      simp only [List.map_cons, List.nodup_cons] at hnd
      by_cases hk : k' = k
      · subst hk
        simp only [dictDelete, if_pos rfl]
        exact (dictGet_eq_none _ _).mpr hnd.1
      · simp [dictDelete, dictGet, hk, ih hnd.2]

theorem dictGet_generatePressedState (cfg : Config) (k : Char) (l : Dict) :
    dictGet k (generatePressedState cfg l)
      = (dictGet k l).map (notePressedStep cfg) := by
  induction l with
  | nil => simp [generatePressedState, dictGet]
  | cons e rest ih =>
      obtain ⟨k', n⟩ := e
      by_cases hk : k' = k
      · subst hk; simp [generatePressedState, dictGet]
      · simpa [generatePressedState, dictGet, hk] using ih

theorem generatePressedState_cons (cfg : Config) (k' : Char) (n : Note) (rest : Dict) :
    generatePressedState cfg ((k', n) :: rest)
      = (k', notePressedStep cfg n) :: generatePressedState cfg rest := rfl

theorem generateReleasingState_cons_none {cfg : Config} {n : Note}
    (k' : Char) (rest : Dict) (h : noteReleasingStep cfg n = none) :
    generateReleasingState cfg ((k', n) :: rest) = generateReleasingState cfg rest := by
  simp [generateReleasingState, List.filterMap_cons, h]

theorem generateReleasingState_cons_some {cfg : Config} {n n' : Note}
    (k' : Char) (rest : Dict) (h : noteReleasingStep cfg n = some n') :
    generateReleasingState cfg ((k', n) :: rest)
      = (k', n') :: generateReleasingState cfg rest := by
  simp [generateReleasingState, List.filterMap_cons, h]

theorem keys_generateReleasingState_sublist (cfg : Config) (l : Dict) :
    ((generateReleasingState cfg l).map Prod.fst).Sublist (l.map Prod.fst) := by
  induction l with
  | nil => simp [generateReleasingState]
  | cons e rest ih =>
      obtain ⟨k', n⟩ := e
      cases h : noteReleasingStep cfg n with
      | none =>
          rw [generateReleasingState_cons_none k' rest h, List.map_cons]
          exact List.Sublist.cons k' ih
      | some n' =>
          rw [generateReleasingState_cons_some k' rest h, List.map_cons, List.map_cons]
          exact List.Sublist.cons₂ k' ih

theorem dictGet_generateReleasingState (cfg : Config) (k : Char) :
    ∀ l : Dict, (l.map Prod.fst).Nodup →
      dictGet k (generateReleasingState cfg l)
        = (dictGet k l).bind (noteReleasingStep cfg) := by
  intro l
  induction l with
  | nil => intro _; simp [generateReleasingState, dictGet]
  | cons e rest ih =>
      intro hnd
      obtain ⟨k', n⟩ := e
      simp only [List.map_cons, List.nodup_cons] at hnd
      by_cases hk : k' = k
      · cases h : noteReleasingStep cfg n with
        | none =>
            rw [generateReleasingState_cons_none k' rest h]
            have hnone : dictGet k (generateReleasingState cfg rest) = none := by
              refine (dictGet_eq_none _ _).mpr (fun hmem => hnd.1 ?_)
              rw [hk]
              exact (keys_generateReleasingState_sublist cfg rest).subset hmem
            rw [hnone]
            simp [dictGet, hk, h]
        | some n' =>
            rw [generateReleasingState_cons_some k' rest h]
            simp [dictGet, hk, h]
      · cases h : noteReleasingStep cfg n with
        | none =>
            rw [generateReleasingState_cons_none k' rest h, ih hnd.2]
            simp [dictGet, hk]
        | some n' =>
            rw [generateReleasingState_cons_some k' rest h]
            simp [dictGet, hk, ih hnd.2]

theorem nodup_keys_generateReleasingState (cfg : Config) {l : Dict}
    (hnd : (l.map Prod.fst).Nodup) :
    ((generateReleasingState cfg l).map Prod.fst).Nodup :=
  hnd.sublist (keys_generateReleasingState_sublist cfg l)

theorem ne_nil_of_dictGet {k : Char} {n : Note} {l : Dict}
    (h : dictGet k l = some n) : l ≠ [] := by
  cases l <;> simp_all [dictGet]

/-! Behaviour lemmas for the three engine operations. -/

theorem keyPress_of_none {st : SynthState} {k : Char}
    (h : (keyToFreq st.octave k).1 = none) :
    keyPress st k
      = ({ st with octave := (keyToFreq st.octave k).2 }, some PyErr.typeError) := by
  simp [keyPress, h]

theorem keyPress_of_some {st : SynthState} {k : Char} {f : ℚ}
    (h : (keyToFreq st.octave k).1 = some f) (hf : st.octave * f ≠ 0) :
    keyPress st k
      = ({ st with
            pressed_keys := dictInsert k ⟨st.octave * f, 0⟩ st.pressed_keys },
         none) := by
  have h2 := keyToFreq_snd_of_isSome st.octave k f h
  simp [keyPress, h, h2, hf]

theorem keyRelease_of_none {st : SynthState} {k : Char}
    (h : (keyToFreq st.octave k).1 = none) :
    keyRelease st k = ({ st with octave := (keyToFreq st.octave k).2 }, none) := by
  simp [keyRelease, h]

theorem keyRelease_of_some_absent {st : SynthState} {k : Char} {f : ℚ}
    (h : (keyToFreq st.octave k).1 = some f) (hf : f ≠ 0)
    (hget : dictGet k st.pressed_keys = none) :
    keyRelease st k = (st, some PyErr.keyError) := by
  have h2 := keyToFreq_snd_of_isSome st.octave k f h
  simp [keyRelease, h, h2, hf, hget]

theorem keyRelease_of_some_present {st : SynthState} {k : Char} {f : ℚ} {n : Note}
    (h : (keyToFreq st.octave k).1 = some f) (hf : f ≠ 0)
    (hget : dictGet k st.pressed_keys = some n) :
    keyRelease st k
      = ({ st with
            releasing_keys := dictInsert k ⟨n.fundamental, n.amp⟩ st.releasing_keys,
            pressed_keys := dictDelete k st.pressed_keys },
         none) := by
  have h2 := keyToFreq_snd_of_isSome st.octave k f h
  simp [keyRelease, h, h2, hf, hget]

theorem emitTickState_idle {cfg : Config} {st : SynthState}
    (hp : st.pressed_keys = []) (hr : st.releasing_keys = []) :
    emitTickState cfg st = { st with time_offset := 0 } := by
  simp [emitTickState, hp, hr]

theorem emitTickState_active {cfg : Config} {st : SynthState}
    (h : ¬(st.pressed_keys = [] ∧ st.releasing_keys = [])) :
    emitTickState cfg st
      = { st with
            pressed_keys := generatePressedState cfg st.pressed_keys
            releasing_keys := generateReleasingState cfg st.releasing_keys
            time_offset :=
              if st.time_offset + cfg.buffer_time_lapse > 360 then 0
              else st.time_offset + cfg.buffer_time_lapse } := by
  simp only [emitTickState, if_neg h]

/-! Claim theorems. -/

/-- C1 (code_bug evaluation): for an input symbol that resolves to no base
frequency, `key_press` leaves both voice registries untouched — but it does
NOT return normally: `self.octave * None` raises a TypeError. Evaluated at
the unmapped key 'q' (state fully unchanged) and at the octave control 'z'
(octave already halved when the error propagates). -/
theorem keyPress_no_freq_raises_typeError :
    keyPress initState 'q' = (initState, some PyErr.typeError)
    ∧ keyPress initState 'z'
        = ({ initState with octave := 1 / 2 }, some PyErr.typeError) :=
  ⟨rfl, rfl⟩

/-- C2 (code_bug evaluation): `key_release` for a resolvable symbol that is
absent from `pressed_keys` does NOT behave as a no-op that cannot fail: the
lookup `self.pressed_keys[in_key]` raises a KeyError. The registries are
left unchanged because the exception fires before any assignment. Evaluated
at key 'a' on a freshly constructed instrument. -/
theorem keyRelease_not_pressed_raises_keyError :
    keyRelease initState 'a' = (initState, some PyErr.keyError) :=
  @keyRelease_of_some_absent initState 'a' (26163/100) (by simp) (by norm_num) rfl

/-- C3 (code_bug evaluation): the per-tick release decrement divides
`chunk_size` by the ATTACK sample count (src/synth.py line 143), not by the
release sample count. With attack 0.1 s, release 0.6 s, 44100 Hz and 512
samples per chunk, the configured release sample count is 26460, yet a
releasing note at amplitude 1 steps to `1 - 512/4410`, which differs from
the claimed `1 - 512/26460`. -/
theorem release_decrement_uses_attack_count :
    (configOf [1] (some [1]) (1/10) (6/10) 44100 512).n_release_samples = 26460
    ∧ noteReleasingStep (configOf [1] (some [1]) (1/10) (6/10) 44100 512)
        ⟨26163/100, 1⟩ = some ⟨26163/100, 1 - 512/4410⟩
    ∧ (1 - 512/4410 : ℚ) ≠ 1 - 512/26460 := by
  refine ⟨by norm_num [configOf], ?_, by norm_num⟩
  norm_num [noteReleasingStep, configOf]

/-- C7 (code_bug evaluation): constructing an engine whose harmonics and
amps sequences have different lengths does NOT fail: the source's
`assert(len(amps) == len(harmonics), "...")` asserts a 2-tuple, which is
always truthy, so the mismatched construction succeeds (and no
ConfigurationError type exists in the source at all). -/
theorem init_accepts_mismatched_lengths :
    instrumentInit [1, 2] (some [1]) (1/10) (6/10) 44100 512
      = Except.ok (configOf [1, 2] (some [1]) (1/10) (6/10) 44100 512)
    ∧ ([1] : List ℚ).length ≠ ([1, 2] : List ℚ).length :=
  ⟨rfl, by simp⟩

theorem keyPress_of_some_zero {st : SynthState} {k : Char} {f : ℚ}
    (h : (keyToFreq st.octave k).1 = some f) (hf : st.octave * f = 0) :
    keyPress st k = (st, none) := by
  have h2 := keyToFreq_snd_of_isSome st.octave k f h
  simp [keyPress, h, h2, hf]

theorem keyRelease_of_some_zero {st : SynthState} {k : Char} {f : ℚ}
    (h : (keyToFreq st.octave k).1 = some f) (hf : f = 0) :
    keyRelease st k = (st, none) := by
  have h2 := keyToFreq_snd_of_isSome st.octave k f h
  simp [keyRelease, h, h2, hf]

/-- C10: `key_release` on an octave-control symbol mutates the octave a
second time — halving it for 'z', doubling it for 'x' — without error and
without touching the registries, so a complete press-then-release cycle of
an octave control applies the octave change twice (press mutates once
before its TypeError propagates, release mutates again); and apart from
that side effect `key_release` modifies no engine state outside the two
voice registries: `time_offset` is preserved for every key, and `octave`
is preserved for every non-control key. -/
theorem keyRelease_octave_side_effects :
    (∀ st : SynthState,
        keyRelease st 'z' = ({ st with octave := st.octave / 2 }, none))
    ∧ (∀ st : SynthState,
        keyRelease st 'x' = ({ st with octave := st.octave * 2 }, none))
    ∧ (∀ st : SynthState,
        ((keyRelease (keyPress st 'z').1 'z').1).octave = st.octave / 2 / 2)
    ∧ (∀ st : SynthState,
        ((keyRelease (keyPress st 'x').1 'x').1).octave = st.octave * 2 * 2)
    ∧ (∀ (st : SynthState) (k : Char),
        ((keyRelease st k).1).time_offset = st.time_offset)
    ∧ (∀ (st : SynthState) (k : Char), k ≠ 'z' → k ≠ 'x' →
        ((keyRelease st k).1).octave = st.octave) := by
  have hz : ∀ st : SynthState,
      keyRelease st 'z' = ({ st with octave := st.octave / 2 }, none) := by
    intro st
    simpa using @keyRelease_of_none st 'z' (by simp)
  have hx : ∀ st : SynthState,
      keyRelease st 'x' = ({ st with octave := st.octave * 2 }, none) := by
    intro st
    simpa using @keyRelease_of_none st 'x' (by simp)
  have hto : ∀ (st : SynthState) (k : Char),
      ((keyRelease st k).1).time_offset = st.time_offset := by
    intro st k
    rcases hr : (keyToFreq st.octave k).1 with _ | f
    · rw [keyRelease_of_none hr]
    · by_cases hf : f = 0
      · rw [keyRelease_of_some_zero hr hf]
      · rcases hget : dictGet k st.pressed_keys with _ | n
        · rw [keyRelease_of_some_absent hr hf hget]
        · rw [keyRelease_of_some_present hr hf hget]
  have hoct : ∀ (st : SynthState) (k : Char), k ≠ 'z' → k ≠ 'x' →
      ((keyRelease st k).1).octave = st.octave := by
    intro st k hkz hkx
    rcases hr : (keyToFreq st.octave k).1 with _ | f
    · rw [keyRelease_of_none hr]
      exact keyToFreq_snd_of_ne st.octave k hkz hkx
    · by_cases hf : f = 0
      · rw [keyRelease_of_some_zero hr hf]
      · rcases hget : dictGet k st.pressed_keys with _ | n
        · rw [keyRelease_of_some_absent hr hf hget]
        · rw [keyRelease_of_some_present hr hf hget]
  refine ⟨hz, hx, ?_, ?_, hto, hoct⟩
  · intro st
    have hp : (keyPress st 'z').1 = { st with octave := st.octave / 2 } := by
      rw [keyPress_of_none (by simp)]
      simp
    rw [hp, hz]
  · intro st
    have hp : (keyPress st 'x').1 = { st with octave := st.octave * 2 } := by
      rw [keyPress_of_none (by simp)]
      simp
    rw [hp, hx]

/-- Witness for C10 at concrete inputs: octave key 'z' on the initial state,
a full press-release cycle of 'z', and the unmapped key 'q'. -/
theorem keyRelease_octave_side_effects_witness :
    keyRelease initState 'z' = ({ initState with octave := 1 / 2 }, none)
    ∧ ((keyRelease (keyPress initState 'z').1 'z').1).octave = 1 / 2 / 2
    ∧ ((keyRelease initState 'q').1).octave = 1 ∧ ('q' : Char) ≠ 'z' :=
  ⟨keyRelease_octave_side_effects.1 initState,
   keyRelease_octave_side_effects.2.2.1 initState,
   keyRelease_octave_side_effects.2.2.2.2.2 initState 'q' (by decide) (by decide),
   by decide⟩

/-! Preservation of the amplitude bounds by every operation (for C4). -/

theorem notePressedStep_amp (cfg : Config) (n : Note) :
    (notePressedStep cfg n).amp =
      if n.amp < 1 then
        (if n.amp + (cfg.chunk_size : ℚ) / cfg.n_attack_samples ≥ 1 then 1
         else n.amp + (cfg.chunk_size : ℚ) / cfg.n_attack_samples)
      else n.amp := by
  unfold notePressedStep
  by_cases hlt : n.amp < 1 <;> simp [hlt]

theorem notePressedStep_fundamental (cfg : Config) (n : Note) :
    (notePressedStep cfg n).fundamental = n.fundamental := by
  unfold notePressedStep
  by_cases hlt : n.amp < 1 <;> simp [hlt]

theorem ampInvariant_init (cfg : Config) : ampInvariant cfg initState := by
  constructor <;> intro e he <;> simp [initState] at he

theorem ampInvariant_keyPress {cfg : Config} {st : SynthState} (k : Char)
    (h : ampInvariant cfg st) : ampInvariant cfg (keyPress st k).1 := by
  rcases hr : (keyToFreq st.octave k).1 with _ | f
  · rw [keyPress_of_none hr]; exact h
  · by_cases hf : st.octave * f = 0
    · rw [keyPress_of_some_zero hr hf]; exact h
    · rw [keyPress_of_some hr hf]
      refine ⟨?_, h.2⟩
      intro e he
      rcases mem_dictInsert he with he | he
      · rw [he]
        constructor <;> norm_num
      · exact h.1 e he

theorem ampInvariant_keyRelease {cfg : Config} {st : SynthState} (k : Char)
    (hd : 0 < (cfg.chunk_size : ℚ) / cfg.n_attack_samples)
    (h : ampInvariant cfg st) : ampInvariant cfg (keyRelease st k).1 := by
  rcases hr : (keyToFreq st.octave k).1 with _ | f
  · rw [keyRelease_of_none hr]; exact h
  · by_cases hf : f = 0
    · rw [keyRelease_of_some_zero hr hf]; exact h
    · rcases hget : dictGet k st.pressed_keys with _ | n
      · rw [keyRelease_of_some_absent hr hf hget]; exact h
      · rw [keyRelease_of_some_present hr hf hget]
        have hn := h.1 (k, n) (dictGet_mem hget)
        refine ⟨?_, ?_⟩
        · intro e he
          exact h.1 e (mem_dictDelete he)
        · intro e he
          rcases mem_dictInsert he with he | he
          · rw [he]
            exact ⟨lt_of_lt_of_le (neg_lt_zero.mpr hd) hn.1, hn.2⟩
          · exact h.2 e he

theorem ampInvariant_tick {cfg : Config} {st : SynthState}
    (hd : 0 < (cfg.chunk_size : ℚ) / cfg.n_attack_samples)
    (h : ampInvariant cfg st) : ampInvariant cfg (emitTickState cfg st) := by
  by_cases hidle : st.pressed_keys = [] ∧ st.releasing_keys = []
  · rw [emitTickState_idle hidle.1 hidle.2]; exact h
  · rw [emitTickState_active hidle]
    refine ⟨?_, ?_⟩
    · intro e he
      simp only [generatePressedState, List.mem_map] at he
      obtain ⟨a, ha, rfl⟩ := he
      have hb := h.1 a ha
      show 0 ≤ (notePressedStep cfg a.2).amp ∧ (notePressedStep cfg a.2).amp ≤ 1
      rw [notePressedStep_amp]
      by_cases hlt : a.2.amp < 1
      · rw [if_pos hlt]
        by_cases hge : a.2.amp + (cfg.chunk_size : ℚ) / cfg.n_attack_samples ≥ 1
        · rw [if_pos hge]
          exact ⟨zero_le_one, le_refl 1⟩
        · rw [if_neg hge]
          exact ⟨add_nonneg hb.1 hd.le, (lt_of_not_ge hge).le⟩
      · rw [if_neg hlt]
        exact hb
    · intro e he
      simp only [generateReleasingState, List.mem_filterMap] at he
      obtain ⟨a, ha, hae⟩ := he
      have hb := h.2 a ha
      unfold noteReleasingStep at hae
      by_cases hpos : a.2.amp > 0
      · rw [if_pos hpos, Option.map_some'] at hae
        cases hae
        refine ⟨?_, ?_⟩
        · show -((cfg.chunk_size : ℚ) / cfg.n_attack_samples)
              < a.2.amp - (cfg.chunk_size : ℚ) / cfg.n_attack_samples
          linarith
        · show a.2.amp - (cfg.chunk_size : ℚ) / cfg.n_attack_samples ≤ 1
          linarith [hb.2]
      · rw [if_neg hpos, Option.map_none'] at hae
        exact absurd hae (by simp)

theorem ampInvariant_runOp {cfg : Config} {st : SynthState}
    (hd : 0 < (cfg.chunk_size : ℚ) / cfg.n_attack_samples) (op : Op)
    (h : ampInvariant cfg st) : ampInvariant cfg (runOp cfg st op) := by
  cases op with
  | press k => exact ampInvariant_keyPress k h
  | release k => exact ampInvariant_keyRelease k hd h
  | tick => exact ampInvariant_tick hd h

theorem ampInvariant_runOps {cfg : Config}
    (hd : 0 < (cfg.chunk_size : ℚ) / cfg.n_attack_samples) :
    ∀ (ops : List Op) (st : SynthState),
      ampInvariant cfg st → ampInvariant cfg (runOps cfg st ops) := by
  intro ops
  induction ops with
  | nil => intro st h; exact h
  | cons op rest ih => intro st h; exact ih _ (ampInvariant_runOp hd op h)

theorem noteReleasingStep_eq (cfg : Config) (n : Note) :
    noteReleasingStep cfg n =
      if 0 < n.amp then
        some ⟨n.fundamental, n.amp - (cfg.chunk_size : ℚ) / cfg.n_attack_samples⟩
      else none := by
  unfold noteReleasingStep
  by_cases hpos : n.amp > 0 <;> simp [hpos]

theorem tick_releasing_get {cfg : Config} {st : SynthState} {k : Char} {n : Note}
    (hnd : (st.releasing_keys.map Prod.fst).Nodup)
    (hget : dictGet k st.releasing_keys = some n) :
    dictGet k (emitTickState cfg st).releasing_keys = noteReleasingStep cfg n := by
  have hne : ¬(st.pressed_keys = [] ∧ st.releasing_keys = []) := by
    intro hcon
    exact (ne_nil_of_dictGet hget) hcon.2
  rw [emitTickState_active hne]
  show dictGet k (generateReleasingState cfg st.releasing_keys) = _
  rw [dictGet_generateReleasingState cfg k st.releasing_keys hnd, hget]
  rfl

theorem tick_releasing_none {cfg : Config} {st : SynthState} {k : Char}
    (hget : dictGet k st.releasing_keys = none) :
    dictGet k (emitTickState cfg st).releasing_keys = none := by
  by_cases hidle : st.pressed_keys = [] ∧ st.releasing_keys = []
  · rw [emitTickState_idle hidle.1 hidle.2]
    exact hget
  · rw [emitTickState_active hidle]
    show dictGet k (generateReleasingState cfg st.releasing_keys) = none
    refine (dictGet_eq_none _ _).mpr (fun hmem => ?_)
    exact ((dictGet_eq_none _ _).mp hget)
      ((keys_generateReleasingState_sublist cfg _).subset hmem)

theorem tick_releasing_nodup {cfg : Config} {st : SynthState}
    (hnd : (st.releasing_keys.map Prod.fst).Nodup) :
    (((emitTickState cfg st).releasing_keys).map Prod.fst).Nodup := by
  by_cases hidle : st.pressed_keys = [] ∧ st.releasing_keys = []
  · rw [emitTickState_idle hidle.1 hidle.2]
    exact hnd
  · rw [emitTickState_active hidle]
    exact nodup_keys_generateReleasingState cfg hnd

/-- C5: a releasing voice entering the registry at amplitude `a0` is observed
at `a0 - j*(chunk_size/n_attack_samples)` before tick `j+1`; it stays in the
registry through tick `N` (the last tick that starts with positive
amplitude, so the observed amplitudes are strictly decreasing, in particular
monotonically non-increasing) and disappears exactly on tick `N+1` — the
first render tick at which its amplitude is ≤ 0 — never to return. -/
theorem releasing_removed_on_first_nonpositive_tick
    (cfg : Config) (hc : 0 < cfg.chunk_size) (hn : 0 < cfg.n_attack_samples)
    (st : SynthState) (k : Char) (f a0 : ℚ) (N : ℕ)
    (hnd : (st.releasing_keys.map Prod.fst).Nodup)
    (hget : dictGet k st.releasing_keys = some ⟨f, a0⟩)
    (hN : a0 - N * ((cfg.chunk_size : ℚ) / cfg.n_attack_samples) ≤ 0)
    (hN' : ∀ j < N, 0 < a0 - j * ((cfg.chunk_size : ℚ) / cfg.n_attack_samples)) :
    (∀ j ≤ N,
        dictGet k ((emitTickState cfg)^[j] st).releasing_keys
          = some ⟨f, a0 - j * ((cfg.chunk_size : ℚ) / cfg.n_attack_samples)⟩)
    ∧ (∀ j, N < j →
        dictGet k ((emitTickState cfg)^[j] st).releasing_keys = none)
    ∧ (∀ j1 j2 : ℕ, j1 ≤ j2 →
        a0 - j2 * ((cfg.chunk_size : ℚ) / cfg.n_attack_samples)
          ≤ a0 - j1 * ((cfg.chunk_size : ℚ) / cfg.n_attack_samples)) := by
  have hd : 0 < (cfg.chunk_size : ℚ) / cfg.n_attack_samples :=
    div_pos (by exact_mod_cast hc) hn
  have main : ∀ j, j ≤ N →
      dictGet k ((emitTickState cfg)^[j] st).releasing_keys
        = some ⟨f, a0 - j * ((cfg.chunk_size : ℚ) / cfg.n_attack_samples)⟩
      ∧ ((((emitTickState cfg)^[j] st).releasing_keys).map Prod.fst).Nodup := by
    intro j
    induction j with
    | zero =>
        intro _
        refine ⟨?_, hnd⟩
        simpa using hget
    | succ j ih =>
        intro hj
        have hjN : j < N := Nat.lt_of_succ_le hj
        obtain ⟨hpres, hnodup⟩ := ih (Nat.le_of_lt hjN)
        have hposamp := hN' j hjN
        rw [Function.iterate_succ_apply']
        refine ⟨?_, tick_releasing_nodup hnodup⟩
        rw [tick_releasing_get hnodup hpres, noteReleasingStep_eq]
        rw [if_pos hposamp]
        have harith :
            a0 - j * ((cfg.chunk_size : ℚ) / cfg.n_attack_samples)
              - (cfg.chunk_size : ℚ) / cfg.n_attack_samples
            = a0 - (j + 1 : ℕ) * ((cfg.chunk_size : ℚ) / cfg.n_attack_samples) := by
          push_cast
          ring
        rw [show (⟨f, a0 - j * ((cfg.chunk_size : ℚ) / cfg.n_attack_samples)⟩ : Note).amp
              - (cfg.chunk_size : ℚ) / cfg.n_attack_samples
            = a0 - (j + 1 : ℕ) * ((cfg.chunk_size : ℚ) / cfg.n_attack_samples)
          from harith]
  have hrem : ∀ m : ℕ,
      dictGet k ((emitTickState cfg)^[N + 1 + m] st).releasing_keys = none := by
    intro m
    induction m with
    | zero =>
        obtain ⟨hpres, hnodup⟩ := main N (le_refl N)
        rw [Function.iterate_succ_apply']
        rw [tick_releasing_get hnodup hpres, noteReleasingStep_eq]
        rw [if_neg (not_lt.mpr hN)]
    | succ m ih =>
        have heq : N + 1 + (m + 1) = (N + 1 + m) + 1 := by omega
        rw [heq, Function.iterate_succ_apply']
        exact tick_releasing_none ih
  refine ⟨fun j hj => (main j hj).1, ?_, ?_⟩
  · intro j hj
    have heq : j = N + 1 + (j - N - 1) := by omega
    rw [heq]
    exact hrem _
  · intro j1 j2 h12
    have hmul := mul_le_mul_of_nonneg_right
      (show (j1 : ℚ) ≤ (j2 : ℚ) by exact_mod_cast h12) hd.le
    linarith

/-- Witness for C5: a single releasing voice at amplitude 1 with attack
0.1 s, 44100 Hz, 512-sample chunks (decrement 512/4410) is removed on tick
10, the first tick observing a non-positive amplitude. -/
theorem releasing_removed_witness :
    dictGet 'a'
        ((emitTickState (configOf [1] (some [1]) (1/10) (6/10) 44100 512))^[10]
          (⟨0, [], [('a', ⟨26163/100, 1⟩)], 1⟩ : SynthState)).releasing_keys
      = none := by
  have h := releasing_removed_on_first_nonpositive_tick
    (configOf [1] (some [1]) (1/10) (6/10) 44100 512)
    (by norm_num [configOf]) (by norm_num [configOf])
    ⟨0, [], [('a', ⟨26163/100, 1⟩)], 1⟩ 'a' (26163/100) 1 9
    (by simp) rfl (by norm_num [configOf])
    (by
      intro j hj
      have hj8 : (j : ℚ) ≤ 8 := by exact_mod_cast Nat.lt_succ_iff.mp hj
      norm_num [configOf]
      nlinarith)
  exact h.2.1 10 (by norm_num)

theorem notePressedStep_mk (cfg : Config) (f a : ℚ) :
    notePressedStep cfg ⟨f, a⟩ =
      ⟨f, if a < 1 then
            (if a + (cfg.chunk_size : ℚ) / cfg.n_attack_samples ≥ 1 then 1
             else a + (cfg.chunk_size : ℚ) / cfg.n_attack_samples)
          else a⟩ := by
  unfold notePressedStep
  by_cases hlt : a < 1 <;> simp [hlt]

theorem tick_pressed_single {cfg : Config} {st : SynthState} {k : Char} {n : Note}
    (hp : st.pressed_keys = [(k, n)]) (hr : st.releasing_keys = []) :
    (emitTickState cfg st).pressed_keys = [(k, notePressedStep cfg n)]
    ∧ (emitTickState cfg st).releasing_keys = [] := by
  have hne : ¬(st.pressed_keys = [] ∧ st.releasing_keys = []) := by
    intro hcon
    rw [hp] at hcon
    exact absurd hcon.1 (by simp)
  rw [emitTickState_active hne]
  constructor
  · show generatePressedState cfg st.pressed_keys = _
    rw [hp]
    rfl
  · show generateReleasingState cfg st.releasing_keys = []
    rw [hr]
    rfl

theorem iterate_pressed_amp (cfg : Config)
    (hd : 0 < (cfg.chunk_size : ℚ) / cfg.n_attack_samples)
    (k : Char) (f : ℚ) (st : SynthState)
    (hp : st.pressed_keys = [(k, ⟨f, 0⟩)]) (hr : st.releasing_keys = []) :
    ∀ j : ℕ,
      ((emitTickState cfg)^[j] st).pressed_keys
        = [(k, ⟨f, min ((j : ℚ) * ((cfg.chunk_size : ℚ) / cfg.n_attack_samples)) 1⟩)]
      ∧ ((emitTickState cfg)^[j] st).releasing_keys = [] := by
  intro j
  induction j with
  | zero =>
      refine ⟨?_, hr⟩
      rw [Function.iterate_zero_apply, hp]
      norm_num [min_def]
  | succ j ih =>
      obtain ⟨hpj, hrj⟩ := ih
      rw [Function.iterate_succ_apply']
      obtain ⟨hps, hrs⟩ := tick_pressed_single hpj hrj
      refine ⟨?_, hrs⟩
      rw [hps, notePressedStep_mk]
      have hamp :
          (if min ((j : ℚ) * ((cfg.chunk_size : ℚ) / cfg.n_attack_samples)) 1 < 1 then
            (if min ((j : ℚ) * ((cfg.chunk_size : ℚ) / cfg.n_attack_samples)) 1
                + (cfg.chunk_size : ℚ) / cfg.n_attack_samples ≥ 1 then 1
             else min ((j : ℚ) * ((cfg.chunk_size : ℚ) / cfg.n_attack_samples)) 1
                + (cfg.chunk_size : ℚ) / cfg.n_attack_samples)
          else min ((j : ℚ) * ((cfg.chunk_size : ℚ) / cfg.n_attack_samples)) 1)
          = min (((j + 1 : ℕ) : ℚ) * ((cfg.chunk_size : ℚ) / cfg.n_attack_samples)) 1 := by

        push_cast
        by_cases hlt : (j : ℚ) * ((cfg.chunk_size : ℚ) / cfg.n_attack_samples) < 1
        · rw [min_eq_left hlt.le, if_pos hlt]
          have hh : ((j : ℚ) + 1) * ((cfg.chunk_size : ℚ) / cfg.n_attack_samples)
              = (j : ℚ) * ((cfg.chunk_size : ℚ) / cfg.n_attack_samples)
                + (cfg.chunk_size : ℚ) / cfg.n_attack_samples := by ring
          by_cases hge : (j : ℚ) * ((cfg.chunk_size : ℚ) / cfg.n_attack_samples)
              + (cfg.chunk_size : ℚ) / cfg.n_attack_samples ≥ 1
          · rw [if_pos hge, eq_comm, min_eq_right]
            rw [hh]
            exact hge
          · rw [if_neg hge, eq_comm, min_eq_left, hh]
            rw [hh]
            exact (lt_of_not_ge hge).le
        · have hge1 : (1 : ℚ) ≤ (j : ℚ) * ((cfg.chunk_size : ℚ) / cfg.n_attack_samples) :=
            le_of_not_lt hlt
          rw [min_eq_right hge1, if_neg (lt_irrefl (1 : ℚ)), eq_comm, min_eq_right]
          nlinarith
      rw [hamp]

/-- C6: a voice created by `key_down` with a resolvable symbol and never
released — for a configuration with positive attack and release durations,
positive sample rate and positive buffer length — has amplitude
`j*(chunk_size/(attack*sample_rate)) < 1` after each tick
`j < ceil(attack*sample_rate/chunk_size)`, reaches amplitude exactly 1
after exactly `ceil(attack*sample_rate/chunk_size)` render ticks, and stays
exactly at 1 (never exceeding it) on every later tick. -/
theorem attack_reaches_one_after_ceil_ticks
    (harmonics : List ℚ) (amps : Option (List ℚ)) (attack release sr : ℚ) (cs : ℕ)
    (ha : 0 < attack) (hrel : 0 < release) (hs : 0 < sr) (hc : 0 < cs)
    (k : Char) (freq : ℚ) (hk : (keyToFreq 1 k).1 = some freq) (hf : freq ≠ 0) :
    (∀ j < Nat.ceil (attack * sr / (cs : ℚ)),
        dictGet k
            ((emitTickState (configOf harmonics amps attack release sr cs))^[j]
              (keyPress initState k).1).pressed_keys
          = some ⟨freq, (j : ℚ) * ((cs : ℚ) / (attack * sr))⟩
        ∧ (j : ℚ) * ((cs : ℚ) / (attack * sr)) < 1)
    ∧ (dictGet k
          ((emitTickState (configOf harmonics amps attack release sr cs))^[Nat.ceil (attack * sr / (cs : ℚ))]
            (keyPress initState k).1).pressed_keys
        = some ⟨freq, 1⟩)
    ∧ (∀ j, Nat.ceil (attack * sr / (cs : ℚ)) ≤ j →
        dictGet k
            ((emitTickState (configOf harmonics amps attack release sr cs))^[j]
              (keyPress initState k).1).pressed_keys
          = some ⟨freq, 1⟩) := by
  have h1 : release * sr ≠ 0 := mul_ne_zero hrel.ne' hs.ne'
  have h2 : attack * sr ≠ 0 := mul_ne_zero ha.ne' hs.ne'
  have hnas : (configOf harmonics amps attack release sr cs).n_attack_samples
      = attack * sr := by
    simp [configOf, h1, h2]
  have hnaspos : 0 < (configOf harmonics amps attack release sr cs).n_attack_samples := by
    rw [hnas]
    exact mul_pos ha hs
  have hd : 0 < ((configOf harmonics amps attack release sr cs).chunk_size : ℚ)
      / (configOf harmonics amps attack release sr cs).n_attack_samples :=
    div_pos (by exact_mod_cast hc) hnaspos
  have hdeq : ((configOf harmonics amps attack release sr cs).chunk_size : ℚ)
      / (configOf harmonics amps attack release sr cs).n_attack_samples
      = (cs : ℚ) / (attack * sr) := by
    rw [hnas]
    rfl
  have hpress : (keyPress initState k).1.pressed_keys = [(k, ⟨freq, 0⟩)]
      ∧ (keyPress initState k).1.releasing_keys = [] := by
    have hk' : (keyToFreq initState.octave k).1 = some freq := hk
    have hnz : initState.octave * freq ≠ 0 := by
      show (1 : ℚ) * freq ≠ 0
      rw [one_mul]
      exact hf
    rw [keyPress_of_some hk' hnz]
    constructor
    · show dictInsert k ⟨initState.octave * freq, 0⟩ initState.pressed_keys
        = [(k, ⟨freq, 0⟩)]
      simp [dictInsert, initState]
    · rfl
  have hiter := iterate_pressed_amp (configOf harmonics amps attack release sr cs)
    hd k freq (keyPress initState k).1 hpress.1 hpress.2
  have hgetsingle : ∀ (n : Note), dictGet k [(k, n)] = some n := by
    intro n
    simp [dictGet]
  have hcspos : (0 : ℚ) < (cs : ℚ) := by exact_mod_cast hc
  have hnaspos' : (0 : ℚ) < attack * sr := mul_pos ha hs
  refine ⟨?_, ?_, ?_⟩
  · intro j hj
    have hjlt : (j : ℚ) < attack * sr / (cs : ℚ) := by
      exact_mod_cast Nat.lt_ceil.mp hj
    have hlt1 : (j : ℚ) * ((cs : ℚ) / (attack * sr)) < 1 := by
      rw [← mul_div_assoc, div_lt_one hnaspos']
      exact (lt_div_iff hcspos).mp hjlt
    refine ⟨?_, hlt1⟩
    rw [(hiter j).1, hdeq, hgetsingle]
    rw [min_eq_left hlt1.le]
  · have hge : (1 : ℚ) ≤ (Nat.ceil (attack * sr / (cs : ℚ)) : ℚ)
        * ((cs : ℚ) / (attack * sr)) := by
      rw [← mul_div_assoc, le_div_iff hnaspos', one_mul]
      have := Nat.le_ceil (attack * sr / (cs : ℚ))
      calc attack * sr = attack * sr / (cs : ℚ) * (cs : ℚ) := by
            field_simp
        _ ≤ (Nat.ceil (attack * sr / (cs : ℚ)) : ℚ) * (cs : ℚ) :=
            mul_le_mul_of_nonneg_right this hcspos.le
    rw [(hiter _).1, hdeq, hgetsingle, min_eq_right hge]
  · intro j hj
    have hge : (1 : ℚ) ≤ (j : ℚ) * ((cs : ℚ) / (attack * sr)) := by
      have hNle : ((Nat.ceil (attack * sr / (cs : ℚ)) : ℕ) : ℚ) ≤ (j : ℚ) := by
        exact_mod_cast hj
      have h1le : (1 : ℚ) ≤ (Nat.ceil (attack * sr / (cs : ℚ)) : ℚ)
          * ((cs : ℚ) / (attack * sr)) := by
        rw [← mul_div_assoc, le_div_iff hnaspos', one_mul]
        have := Nat.le_ceil (attack * sr / (cs : ℚ))
        calc attack * sr = attack * sr / (cs : ℚ) * (cs : ℚ) := by
              field_simp
          _ ≤ (Nat.ceil (attack * sr / (cs : ℚ)) : ℚ) * (cs : ℚ) :=
              mul_le_mul_of_nonneg_right this hcspos.le
      calc (1 : ℚ) ≤ (Nat.ceil (attack * sr / (cs : ℚ)) : ℚ)
            * ((cs : ℚ) / (attack * sr)) := h1le
        _ ≤ (j : ℚ) * ((cs : ℚ) / (attack * sr)) :=
            mul_le_mul_of_nonneg_right hNle (div_pos hcspos hnaspos').le
    rw [(hiter j).1, hdeq, hgetsingle, min_eq_right hge]

/-- Witness for C6: with attack 0.1 s, 44100 Hz and 512-sample chunks the
attack sample count is 4410, so the voice reaches amplitude exactly 1 after
exactly `ceil(4410/512) = 9` ticks. -/
theorem attack_reaches_one_witness :
    Nat.ceil ((1/10 : ℚ) * 44100 / ((512 : ℕ) : ℚ)) = 9
    ∧ dictGet 'a'
        ((emitTickState (configOf [1] (some [1]) (1/10) (6/10) 44100 512))^[9]
          (keyPress initState 'a').1).pressed_keys
      = some ⟨26163/100, 1⟩ := by
  have hceil : Nat.ceil ((1/10 : ℚ) * 44100 / ((512 : ℕ) : ℚ)) = 9 := by
    rw [Nat.ceil_eq_iff (by norm_num)]
    norm_num
  refine ⟨hceil, ?_⟩
  have h := (attack_reaches_one_after_ceil_ticks [1] (some [1]) (1/10) (6/10) 44100 512
    (by norm_num) (by norm_num) (by norm_num) (by norm_num)
    'a' (26163/100) (by simp) (by norm_num)).2.1
  rw [hceil] at h
  exact h

/-- C4 (amended): under every sequence of key-down, key-up and render-tick
operations from the initial state — for a configuration with positive chunk
size and positive attack sample count — every pressed voice's stored
amplitude stays within [0, 1], and every releasing voice's stored amplitude
stays within (-chunk_size/n_attack_samples, 1]: the claimed lower bound 0
holds for attacking voices but a releasing voice can store one negative
value (bounded by one decrement) on the tick before its removal. -/
theorem amp_bounds_amended (cfg : Config) (hc : 0 < cfg.chunk_size)
    (hn : 0 < cfg.n_attack_samples) (ops : List Op) :
    ampInvariant cfg (runOps cfg initState ops) := by
  have hd : 0 < (cfg.chunk_size : ℚ) / cfg.n_attack_samples :=
    div_pos (by exact_mod_cast hc) hn
  exact ampInvariant_runOps hd ops initState (ampInvariant_init cfg)

/-- C4 (counterexample): with attack 0.01 s (441 attack samples), release
0.6 s, 44100 Hz, 512-sample chunks — all positive, spec-valid settings —
the sequence press 'a', tick (amplitude clamps to 1), release 'a', tick
leaves the releasing voice stored at amplitude `1 - 512/441 < 0`: the
claimed invariant `amp ∈ [0,1]` at every observation point is violated. -/
theorem amp_outside_unit_interval_counterexample :
    dictGet 'a'
        (runOps (configOf [1] (some [1]) (1/100) (6/10) 44100 512) initState
          [Op.press 'a', Op.tick, Op.release 'a', Op.tick]).releasing_keys
      = some ⟨26163/100, 1 - 512/441⟩
    ∧ ¬ (0 ≤ (1 - 512/441 : ℚ)) := by
  constructor
  · norm_num [runOps, runOp, keyPress, keyRelease, emitTickState,
      generatePressedState, generateReleasingState, notePressedStep,
      noteReleasingStep, dictInsert, dictGet, dictDelete, initState, configOf,
      List.filterMap_cons]
  · norm_num

/-- Witness for the amended C4 at a concrete configuration and operation
sequence. -/
theorem amp_bounds_amended_witness :
    0 < (configOf [1] (some [1]) (1/100) (6/10) 44100 512).chunk_size
    ∧ ampInvariant (configOf [1] (some [1]) (1/100) (6/10) 44100 512)
        (runOps (configOf [1] (some [1]) (1/100) (6/10) 44100 512) initState
          [Op.press 'a', Op.tick, Op.release 'a', Op.tick]) :=
  ⟨by norm_num [configOf],
   amp_bounds_amended _ (by norm_num [configOf]) (by norm_num [configOf]) _⟩

/-- C8: when `key_up` is processed for a symbol currently present in
`pressed_keys`, the call returns normally, the releasing voice that replaces
it carries exactly the attacking voice's current envelope amplitude and the
same fundamental (no discontinuity), and the symbol leaves `pressed_keys`. -/
theorem keyRelease_carries_amp_and_fundamental
    (st : SynthState) (k : Char) (f : ℚ) (n : Note)
    (hk : (keyToFreq st.octave k).1 = some f) (hf : f ≠ 0)
    (hget : dictGet k st.pressed_keys = some n)
    (hnd : (st.pressed_keys.map Prod.fst).Nodup) :
    (keyRelease st k).2 = none
    ∧ dictGet k (keyRelease st k).1.releasing_keys = some ⟨n.fundamental, n.amp⟩
    ∧ dictGet k (keyRelease st k).1.pressed_keys = none := by
  rw [keyRelease_of_some_present hk hf hget]
  refine ⟨rfl, ?_, ?_⟩
  · exact dictGet_dictInsert_self k ⟨n.fundamental, n.amp⟩ st.releasing_keys
  · exact dictGet_dictDelete_self hnd

/-- Witness for C8: releasing the attacking voice 'a' at amplitude 1/2
moves it to the releasing registry at exactly amplitude 1/2 with the same
fundamental. -/
theorem keyRelease_carries_witness :
    (keyRelease (⟨0, [('a', ⟨26163/100, 1/2⟩)], [], 1⟩ : SynthState) 'a').2 = none
    ∧ dictGet 'a'
        (keyRelease (⟨0, [('a', ⟨26163/100, 1/2⟩)], [], 1⟩ : SynthState) 'a').1.releasing_keys
      = some ⟨26163/100, 1/2⟩
    ∧ dictGet 'a'
        (keyRelease (⟨0, [('a', ⟨26163/100, 1/2⟩)], [], 1⟩ : SynthState) 'a').1.pressed_keys
      = none :=
  keyRelease_carries_amp_and_fundamental _ 'a' (26163/100) ⟨26163/100, 1/2⟩
    (by simp) (by norm_num) rfl (by simp)

/-! Sustained-voice rendering lemmas (for C9). -/

theorem tick_sustained (cfg : Config) (k : Char) (f t : ℚ)
    (hwrap : ¬(t + cfg.buffer_time_lapse > 360)) :
    emitTickState cfg (⟨t, [(k, ⟨f, 1⟩)], [], 1⟩ : SynthState)
      = ⟨t + cfg.buffer_time_lapse, [(k, ⟨f, 1⟩)], [], 1⟩ := by
  have hne : ¬((⟨t, [(k, (⟨f, 1⟩ : Note))], [], (1 : ℚ)⟩ : SynthState).pressed_keys = []
      ∧ (⟨t, [(k, (⟨f, 1⟩ : Note))], [], (1 : ℚ)⟩ : SynthState).releasing_keys = []) := by
    simp
  rw [emitTickState_active hne]
  simp [generatePressedState, notePressedStep_mk, generateReleasingState, hwrap]

theorem iterate_sustained (cfg : Config) (k : Char) (f o0 : ℚ)
    (hlapse : 0 ≤ cfg.buffer_time_lapse) :
    ∀ j : ℕ, (∀ m : ℕ, m ≤ j → o0 + m * cfg.buffer_time_lapse ≤ 360) →
      (emitTickState cfg)^[j] (⟨o0, [(k, ⟨f, 1⟩)], [], 1⟩ : SynthState)
        = ⟨o0 + j * cfg.buffer_time_lapse, [(k, ⟨f, 1⟩)], [], 1⟩ := by
  intro j
  induction j with
  | zero =>
      intro _
      rw [Function.iterate_zero_apply]
      norm_num
  | succ j ih =>
      intro hm
      rw [Function.iterate_succ_apply',
        ih (fun m hm' => hm m (le_trans hm' (Nat.le_succ j)))]
      have hstep : o0 + (j : ℚ) * cfg.buffer_time_lapse + cfg.buffer_time_lapse
          = o0 + ((j + 1 : ℕ) : ℚ) * cfg.buffer_time_lapse := by
        push_cast
        ring
      have hwrap : ¬(o0 + (j : ℚ) * cfg.buffer_time_lapse + cfg.buffer_time_lapse > 360) := by
        have hb := hm (j + 1) (le_refl _)
        rw [hstep]
        exact not_lt.mpr hb
      rw [tick_sustained cfg k f _ hwrap, hstep]

theorem emitTickChunk_sustained (cfg : Config) (k : Char) (f t : ℚ) (i : ℕ) :
    emitTickChunk cfg (⟨t, [(k, ⟨f, 1⟩)], [], 1⟩ : SynthState) i
      = some (generateSoundChunk cfg t f i) := by
  unfold emitTickChunk
  rw [if_neg (by simp)]
  congr 1
  unfold generatePressedChunk generateReleasingChunk
  simp [pressedNoteChunk]

/-- C9: for a sustained single voice held at constant envelope amplitude 1,
with the time offset staying below the wrap threshold 360 throughout,
sample `i` of the `j`-th consecutive rendered raw buffer equals sample
`j*chunk_size + i` of the spec's single contiguous closed-form waveform
starting at the initial offset: the concatenation of the buffers has no
phase discontinuity at any buffer boundary. -/
theorem phase_continuity_across_buffers
    (harmonics : List ℚ) (amps : Option (List ℚ)) (attack release sr : ℚ) (cs : ℕ)
    (hs : 0 < sr) (hc : 0 < cs)
    (k : Char) (f o0 : ℚ) (N : ℕ)
    (hwrap : o0 + N * ((cs : ℚ) / sr) ≤ 360) :
    ∀ j < N, ∀ i < cs,
      emitTickChunk (configOf harmonics amps attack release sr cs)
          ((emitTickState (configOf harmonics amps attack release sr cs))^[j]
            (⟨o0, [(k, ⟨f, 1⟩)], [], 1⟩ : SynthState)) i
        = some (specContiguousWave (configOf harmonics amps attack release sr cs)
            o0 f (j * cs + i)) := by
  intro j hj i hi
  have hlapse_eq : (configOf harmonics amps attack release sr cs).buffer_time_lapse
      = (cs : ℚ) / sr := rfl
  have hlapse_nonneg : 0 ≤ (configOf harmonics amps attack release sr cs).buffer_time_lapse := by
    rw [hlapse_eq]
    positivity
  have hst := iterate_sustained (configOf harmonics amps attack release sr cs) k f o0
    hlapse_nonneg j
    (by
      intro m hm
      rw [hlapse_eq]
      have hmN : (m : ℚ) ≤ (N : ℚ) := by
        exact_mod_cast le_of_lt (lt_of_le_of_lt hm hj)
      have hmono : (m : ℚ) * ((cs : ℚ) / sr) ≤ (N : ℚ) * ((cs : ℚ) / sr) :=
        mul_le_mul_of_nonneg_right hmN (by positivity)
      linarith)
  rw [hst, emitTickChunk_sustained]
  congr 1
  unfold generateSoundChunk specContiguousWave
  congr 1
  unfold timeChunk linspace
  show (0 : ℚ) + (i : ℚ) * (((cs : ℚ) / sr - 0) / (cs : ℚ))
      + (o0 + (j : ℚ) * ((cs : ℚ) / sr))
      = o0 + ((j * cs + i : ℕ) : ℚ) / sr
  have hcs0 : ((cs : ℚ)) ≠ 0 := by positivity
  have hsr0 : sr ≠ 0 := hs.ne'
  push_cast
  field_simp
  ring

/-- Witness for C9 at a concrete configuration: the second buffer (j = 1) of
a sustained 'a' voice, at its first sample, equals the contiguous closed
form at global sample index 1*512 + 0. -/
theorem phase_continuity_witness :
    emitTickChunk (configOf [1] (some [1]) (1/10) (6/10) 44100 512)
        ((emitTickState (configOf [1] (some [1]) (1/10) (6/10) 44100 512))^[1]
          (⟨0, [('a', ⟨26163/100, 1⟩)], [], 1⟩ : SynthState)) 0
      = some (specContiguousWave (configOf [1] (some [1]) (1/10) (6/10) 44100 512)
          0 (26163/100) (1 * 512 + 0)) :=
  phase_continuity_across_buffers [1] (some [1]) (1/10) (6/10) 44100 512
    (by norm_num) (by norm_num) 'a' (26163/100) 0 2 (by norm_num)
    1 (by norm_num) 0 (by norm_num)

end Synth
